import Mathlib

/-!
Verification of the reconciliation engine of the `sme_recon_mvp` repository.

The development shallowly embeds the Python code of `backend/main.py`
(`similarity_score`, `reconcile_transactions`), `backend/reconciliation.py`
(`calculate_similarity`, `find_duplicates`) and the financial-metric block of
`backend/working_main.py` into Lean.  Machine floats are modelled as exact
rationals (`ℚ`), calendar dates as day counts (`ℤ`), and Python strings as
`List Char`.

`similarity_score` delegates to Python's `difflib.SequenceMatcher.ratio`,
which is embedded here faithfully for inputs without difflib's "autojunk"
popularity heuristic (the heuristic only activates for second strings of
length ≥ 200): the ratio is `2 * M / (len a + len b)` where `M` is the total
size of the matching blocks found by recursively locating a longest matching
block.  The longest-match scan is translated operation by operation from
`difflib.SequenceMatcher.find_longest_match`: the `j2len` dictionary becomes a
function `ℕ → ℕ` (a missing key reads as `0`), the iteration over `b2j[a[i]]`
(the ascending positions of the character `a[i]` in `b`) becomes an ascending
scan of all positions of `b` that skips positions holding other characters,
and the two junk-free extension loops that follow the scan are kept
(the two loops guarded by `isbjunk` are dropped: with no junk characters
their guards are constantly false).
-/

namespace SmeRecon

set_option maxRecDepth 40000

/-- Python `str.upper`, restricted to its ASCII behaviour (the repository
normalises invoice references and GSTIN vendor codes, which are ASCII). -/
def pyUpper (s : List Char) : List Char := s.map Char.toUpper

/-- Accumulator of `find_longest_match`: the `j2len` dictionary of run lengths
ending in the previous row, and the current best block `(besti, bestj, bestsize)`. -/
structure FlmAcc where
  j2 : ℕ → ℕ
  bi : ℕ
  bj : ℕ
  bs : ℕ

/-- One step of the inner loop of `find_longest_match`: visit position `j` of
`b` while scanning row `i` (character `a[i] = c`); `old` is the `j2len`
dictionary of the previous row.  Mirrors
`k = newj2len[j] = j2len.get(j-1, 0) + 1` and the strict best update. -/
def jnew (old : ℕ → ℕ) (j : ℕ) : ℕ := (if j = 0 then 0 else old (j - 1)) + 1

def jstep (old : ℕ → ℕ) (c : Char) (b : List Char) (i : ℕ) (acc : FlmAcc) (j : ℕ) : FlmAcc :=
  if b.getD j default = c then
    if acc.bs < jnew old j then
      ⟨fun j' => if j' = j then jnew old j else acc.j2 j',
        i + 1 - jnew old j, j + 1 - jnew old j, jnew old j⟩
    else
      ⟨fun j' => if j' = j then jnew old j else acc.j2 j', acc.bi, acc.bj, acc.bs⟩
  else acc

/-- One row of the `find_longest_match` scan: process character `a[i] = c`
against every position of `b` in ascending order, starting from a fresh
`newj2len` dictionary. -/
def rowFold (b : List Char) (c : Char) (i : ℕ) (st : FlmAcc) : FlmAcc :=
  (List.range b.length).foldl (jstep st.j2 c b i) ⟨fun _ => 0, st.bi, st.bj, st.bs⟩

/-- The main double loop of `find_longest_match`. -/
def flmLoop (a b : List Char) : FlmAcc :=
  (List.range a.length).foldl (fun st i => rowFold b (a.getD i default) i st) ⟨fun _ => 0, 0, 0, 0⟩

/-- The backward extension loop
`while besti > alo and bestj > blo and a[besti-1] == b[bestj-1]`, with fuel
(the loop decrements `besti`, so `besti` itself is enough fuel). -/
def extendBack (a b : List Char) : ℕ → ℕ × ℕ × ℕ → ℕ × ℕ × ℕ
  | 0, t => t
  | f + 1, (bi, bj, bs) =>
    if 0 < bi ∧ 0 < bj ∧ a.getD (bi - 1) default = b.getD (bj - 1) default then
      extendBack a b f (bi - 1, bj - 1, bs + 1)
    else (bi, bj, bs)

/-- The forward extension loop
`while besti+bestsize < ahi and bestj+bestsize < bhi and a[besti+bestsize] == b[bestj+bestsize]`,
with fuel (`a.length` bounds the number of increments of `bestsize`). -/
def extendFwd (a b : List Char) : ℕ → ℕ × ℕ × ℕ → ℕ × ℕ × ℕ
  | 0, t => t
  | f + 1, (bi, bj, bs) =>
    if bi + bs < a.length ∧ bj + bs < b.length ∧
        a.getD (bi + bs) default = b.getD (bj + bs) default then
      extendFwd a b f (bi, bj, bs + 1)
    else (bi, bj, bs)

/-- The full `difflib.SequenceMatcher.find_longest_match` over the whole strings. -/
def findLongestMatch (a b : List Char) : ℕ × ℕ × ℕ :=
  extendFwd a b a.length
    (extendBack a b (flmLoop a b).bi ((flmLoop a b).bi, (flmLoop a b).bj, (flmLoop a b).bs))

/-- Total size of the matching blocks of `difflib.get_matching_blocks`,
computed by the standard recursion on the two sides of the longest matching
block; `fuel` dominates the recursion depth (each recursive call strictly
shortens the first string). -/
def matchesGo : ℕ → List Char → List Char → ℕ
  | 0, _, _ => 0
  | f + 1, a, b =>
    let t := findLongestMatch a b
    if t.2.2 = 0 then 0
    else matchesGo f (a.take t.1) (b.take t.2.1) + t.2.2 +
      matchesGo f (a.drop (t.1 + t.2.2)) (b.drop (t.2.1 + t.2.2))

/-- Total matched characters of `SequenceMatcher(None, a, b)`. -/
def seqMatches (a b : List Char) : ℕ := matchesGo (a.length + b.length) a b

/-- The ratio `difflib.SequenceMatcher.ratio`: `2*M/T`, and `1.0` when both strings are
empty (`_calculate_ratio`). -/
def seqSim (a b : List Char) : ℚ :=
  if a.length + b.length = 0 then 1
  else (2 * seqMatches a b : ℚ) / (a.length + b.length)

/-- The function `similarity_score` of `backend/main.py`: `0.0` when either string is empty
(Python falsiness of `""`), otherwise the `SequenceMatcher` ratio of the
uppercased strings. -/
def similarity_score (str1 str2 : List Char) : ℚ :=
  if str1 = [] ∨ str2 = [] then 0
  else seqSim (pyUpper str1) (pyUpper str2)

/-- Weighted Levenshtein distance with insertion/deletion cost 1 and
substitution cost 2 — the distance underlying `Levenshtein.ratio`. -/
def lev2 : List Char → List Char → ℕ
  | [], ys => ys.length
  | x :: xs, [] => (x :: xs).length
  | x :: xs, y :: ys =>
    min (min (lev2 xs (y :: ys) + 1) (lev2 (x :: xs) ys + 1))
      (lev2 xs ys + (if x = y then 0 else 2))
termination_by a b => a.length + b.length
decreasing_by all_goals (simp only [List.length_cons]; omega)

/-- The ratio `Levenshtein.ratio`: `(lensum - dist) / lensum`, and `1.0` when both
strings are empty. -/
def levSim (a b : List Char) : ℚ :=
  if a.length + b.length = 0 then 1
  else ((a.length + b.length : ℚ) - lev2 a b) / (a.length + b.length)

/-- The function `calculate_similarity` of `backend/reconciliation.py`: `0.0` when either
input is null (`pd.isna`), otherwise the Levenshtein ratio of the uppercased
strings.  A null Python value is modelled as `none`. -/
def calculate_similarity (str1 str2 : Option (List Char)) : ℚ :=
  match str1, str2 with
  | none, _ => 0
  | some _, none => 0
  | some a, some b => levSim (pyUpper a) (pyUpper b)

/-!  The normalized records consumed by the engine: calendar dates as day
counts, amounts as exact rationals. -/

/-- A normalized transaction record (`date`, `amount`, `vendor`, `reference`
columns of the processed dataframes). -/
structure Rec where
  reference : List Char
  amount : ℚ
  date : ℤ
  vendor : List Char
deriving DecidableEq

instance : Inhabited Rec := ⟨⟨[], 0, 0, []⟩⟩

/-- The tiered reference credit of `reconcile_transactions` (`main.py`):
`0.65` from similarity `0.98`, `0.55 + (sim - 0.9)` from `0.9`, `sim * 0.5`
from `0.8`, and `sim * 0.15` below. -/
def refCredit (r : ℚ) : ℚ :=
  if 49/50 ≤ r then 13/20
  else if 9/10 ≤ r then 11/20 + (r - 9/10) * 1
  else if 4/5 ≤ r then r * (1/2)
  else r * (3/20)

/-- The quantity `amount_percent_diff`: relative difference guarded against division by
zero (`... if max(...) > 0 else 1`). -/
def amount_percent_diff (g t : ℚ) : ℚ :=
  if 0 < max g t then |g - t| / max g t else 1

/-- The amount credit of `reconcile_transactions`: full `0.25` within `0.1%`,
linear decay over the `5%` tolerance, halved partial credit up to `20%`,
nothing beyond. -/
def amountCredit (g t : ℚ) : ℚ :=
  if amount_percent_diff g t ≤ 1/1000 then 1/4
  else if amount_percent_diff g t ≤ 1/20 then (1 - amount_percent_diff g t / (1/20)) * (1/4)
  else if amount_percent_diff g t ≤ 1/5 then
    (max 0 (1 - amount_percent_diff g t / (1/5)) * (1/2)) * (1/4)
  else 0

/-- The date credit of `reconcile_transactions`: full `0.08` at equal dates,
linear decay to the 30-day window, nothing beyond. -/
def dateCredit (d1 d2 : ℤ) : ℚ :=
  if |d1 - d2| = 0 then 2/25
  else if |d1 - d2| ≤ 30 then max 0 (1 - (|d1 - d2| : ℚ) / 30) * (2/25)
  else 0

/-- The vendor credit of `reconcile_transactions`: `0.02` from similarity
`0.95`, `sim * 0.02` from the `0.6` vendor threshold, `sim * 0.01` below. -/
def vendorCredit (v : ℚ) : ℚ :=
  if 19/20 ≤ v then 1/50
  else if 3/5 ≤ v then v * (1/50)
  else v * (1/100)

/-- The composite match score of `reconcile_transactions` in `main.py`:
reference, amount, date and vendor contributions summed. -/
def compositeScore (g t : Rec) : ℚ :=
  refCredit (similarity_score g.reference t.reference)
    + amountCredit g.amount t.amount
    + dateCredit g.date t.date
    + vendorCredit (similarity_score g.vendor t.vendor)

/-- The hardcoded `min_match_threshold = 0.5` of `reconcile_transactions`. -/
def min_match_threshold : ℚ := 1/2

/-- An accepted match (the `best_match` dictionary appended to `matches`). -/
structure MatchEntry where
  gstr2b_idx : ℕ
  tally_idx : ℕ
  gstr2b_data : Rec
  tally_data : Rec
  match_score : ℚ
deriving DecidableEq

/-- The mutable state of the matching pass: the `matches` list and the
`matched_gstr2b_indices` / `matched_tally_indices` sets (kept as lists). -/
structure RState where
  matches' : List MatchEntry
  matchedA : List ℕ
  matchedB : List ℕ
deriving DecidableEq

/-- The inner scan of `reconcile_transactions` over the tally rows: skip
consumed indices, and take a candidate as new best when
`score > best_score and score >= min_match_threshold`.  The accumulator is
`(best_match_row, best_score)` starting from `(None, 0.0)`. -/
def scanGo (thr : ℚ) (g : Rec) (consumed : List ℕ) :
    List (ℕ × Rec) → Option (ℕ × Rec) × ℚ → Option (ℕ × Rec) × ℚ
  | [], acc => acc
  | p :: rest, acc =>
    if p.1 ∈ consumed then scanGo thr g consumed rest acc
    else
      let s := compositeScore g p.2
      if acc.2 < s ∧ thr ≤ s then scanGo thr g consumed rest (some p, s)
      else scanGo thr g consumed rest acc

/-- The full inner loop for one GSTR2B row: the committed best candidate (with
its score), if any. -/
def innerScan (thr : ℚ) (g : Rec) (tally : List Rec) (consumed : List ℕ) :
    Option ((ℕ × Rec) × ℚ) :=
  match scanGo thr g consumed tally.enum (none, 0) with
  | (some q, s) => some (q, s)
  | (none, _) => none

/-- The outer loop of `reconcile_transactions` over the GSTR2B rows: commit
the best candidate of each scan, recording both indices as consumed. -/
def runA (thr : ℚ) (tally : List Rec) : List (ℕ × Rec) → RState → RState
  | [], st => st
  | p :: rest, st =>
    match innerScan thr p.2 tally st.matchedB with
    | some (q, s) =>
      runA thr tally rest
        ⟨st.matches' ++ [⟨p.1, q.1, p.2, q.2, s⟩], st.matchedA ++ [p.1], st.matchedB ++ [q.1]⟩
    | none => runA thr tally rest st

/-- The metrics block of `reconcile_transactions` in `main.py`. -/
structure Metrics where
  total_matches : ℕ
  high_confidence : ℕ
  medium_confidence : ℕ
  low_confidence : ℕ
  average_score : ℚ
  unmatched_total : ℕ
deriving DecidableEq

/-- Metric computation of `reconcile_transactions`: confidence tiers at `0.95`
and `0.85`, average score guarded for zero matches, unmatched count. -/
def computeMetrics (ms : List MatchEntry) (uA uB : List (ℕ × Rec)) : Metrics where
  total_matches := ms.length
  high_confidence := (ms.filter (fun m => decide (19/20 ≤ m.match_score))).length
  medium_confidence :=
    (ms.filter (fun m => decide (17/20 ≤ m.match_score ∧ m.match_score < 19/20))).length
  low_confidence := (ms.filter (fun m => decide (m.match_score < 17/20))).length
  average_score :=
    if 0 < ms.length then (ms.map MatchEntry.match_score).sum / ms.length else 0
  unmatched_total := uA.length + uB.length

/-- The reconciliation result: matches, the two unmatched leftovers (with
their original indices), and the metrics. -/
structure RResult where
  matches' : List MatchEntry
  unmatched_gstr2b : List (ℕ × Rec)
  unmatched_tally : List (ℕ × Rec)
  metrics : Metrics
deriving DecidableEq

/-- The engine `reconcile_transactions` of `backend/main.py`, with the matching threshold
exposed as a parameter (the source hardcodes `min_match_threshold = 0.5`; the
spec lists `minMatchThreshold` as configuration). -/
def reconcile_transactions (thr : ℚ) (gstr2b tally : List Rec) : RResult :=
  let st := runA thr tally gstr2b.enum ⟨[], [], []⟩
  let uA := gstr2b.enum.filter (fun p => decide (p.1 ∉ st.matchedA))
  let uB := tally.enum.filter (fun p => decide (p.1 ∉ st.matchedB))
  ⟨st.matches', uA, uB, computeMetrics st.matches' uA uB⟩

/-- The detector `find_duplicates` of `backend/reconciliation.py`: the indices whose date
lies within `date_window` days and whose amount lies within `tolerance` of
record `i`, excluding `i` itself.  (The Python function wraps these lists in
a dictionary keyed by the indices with at least one near-duplicate; an index
absent from the dictionary corresponds to an empty list here.) -/
def find_duplicates (df : List Rec) (tolerance : ℚ) (date_window : ℤ) (i : ℕ) : List ℕ :=
  (List.range df.length).filter fun j =>
    decide (|(df.getD j default).date - (df.getD i default).date| ≤ date_window ∧
      |(df.getD j default).amount - (df.getD i default).amount| ≤ tolerance ∧ j ≠ i)

/-!  Financial metrics of `reconcile_transactions` in `backend/working_main.py`
(lines computing `matched_gstr2b_total`, `unmatched_gstr2b_total`, …). -/

/-- The grand total `float(df['amount'].sum())`. -/
def amount_total (df : List Rec) : ℚ := (df.map Rec.amount).sum

/-- The matched subtotal `float(df.loc[list(matched_indices), 'amount'].sum()) if matched_indices else 0`. -/
def matched_amount_total (df : List Rec) (idxs : List ℕ) : ℚ :=
  if idxs = [] then 0
  else ((df.enum.filter (fun p => decide (p.1 ∈ idxs))).map (fun p => p.2.amount)).sum

/-- The unmatched subtotal `float(unmatched['amount'].sum()) if len(unmatched) > 0 else 0` — the sum
over the rows whose index was not matched. -/
def unmatched_amount_total (df : List Rec) (idxs : List ℕ) : ℚ :=
  ((df.enum.filter (fun p => decide (p.1 ∉ idxs))).map (fun p => p.2.amount)).sum

/-!  ### Generic fold-invariant helpers -/

/-- Invariant preservation through `List.foldl` (membership form). -/
lemma foldl_inv {α : Type} {β : Type} (P : α → Prop) (f : α → β → α) :
    ∀ (l : List β) (init : α), P init → (∀ a x, x ∈ l → P a → P (f a x)) →
      P (l.foldl f init) := by
  intro l
  induction l with
  | nil => intro init h0 _; exact h0
  | cons x xs ih =>
    intro init h0 hs
    exact ih (f init x) (hs init x (List.mem_cons_self x xs) h0)
      (fun a y hy ha => hs a y (List.mem_cons_of_mem x hy) ha)

/-- Invariant preservation through `List.foldl` over `List.range n`, indexed
by the number of processed elements. -/
lemma foldl_range_ind {α : Type} (P : ℕ → α → Prop) (f : α → ℕ → α) (init : α)
    (h0 : P 0 init) :
    ∀ n, (∀ m a, m < n → P m a → P (m + 1) (f a m)) →
      P n ((List.range n).foldl f init) := by
  intro n
  induction n with
  | zero => intro _; simpa using h0
  | succ k ih =>
    intro hs
    rw [List.range_succ, List.foldl_append]
    exact hs k _ (Nat.lt_succ_self k)
      (ih (fun m a hm => hs m a (hm.trans (Nat.lt_succ_self k))))

/-!  ### `find_longest_match` returns a block inside both strings -/

/-- The best block recorded so far lies within both strings. -/
def BestBound (a b : List Char) (t : ℕ × ℕ × ℕ) : Prop :=
  t.1 + t.2.2 ≤ a.length ∧ t.2.1 + t.2.2 ≤ b.length

lemma jnew_le {old : ℕ → ℕ} {i : ℕ} (hold : ∀ j', old j' ≤ min i (j' + 1)) (j : ℕ) :
    jnew old j ≤ min (i + 1) (j + 1) := by
  unfold jnew
  split
  · omega
  · have := hold (j - 1)
    omega

lemma jstep_inv {a b : List Char} {old : ℕ → ℕ} {c : Char} {i : ℕ}
    (hi : i < a.length) (hold : ∀ j', old j' ≤ min i (j' + 1)) :
    ∀ (acc : FlmAcc) (j : ℕ), j < b.length →
      ((∀ j', acc.j2 j' ≤ min (i + 1) (j' + 1)) ∧ BestBound a b (acc.bi, acc.bj, acc.bs)) →
      ((∀ j', (jstep old c b i acc j).j2 j' ≤ min (i + 1) (j' + 1)) ∧
        BestBound a b ((jstep old c b i acc j).bi, (jstep old c b i acc j).bj,
          (jstep old c b i acc j).bs)) := by
  intro acc j hj ⟨hacc, hbb⟩
  have hk := jnew_le hold j
  have hnj : ∀ j', (fun j' => if j' = j then jnew old j else acc.j2 j') j' ≤
      min (i + 1) (j' + 1) := by
    intro j'
    by_cases h : j' = j
    · subst h; simpa using hk
    · simpa [h] using hacc j'
  unfold jstep
  split
  · split
    · refine ⟨hnj, ?_, ?_⟩ <;> · simp only; omega
    · exact ⟨hnj, hbb⟩
  · exact ⟨hacc, hbb⟩

/-- After the main double loop, the best block lies within both strings. -/
lemma flmLoop_bounds (a b : List Char) :
    (∀ j', (flmLoop a b).j2 j' ≤ min a.length (j' + 1)) ∧
      BestBound a b ((flmLoop a b).bi, (flmLoop a b).bj, (flmLoop a b).bs) := by
  unfold flmLoop
  refine foldl_range_ind
    (fun m (st : FlmAcc) =>
      (∀ j', st.j2 j' ≤ min m (j' + 1)) ∧ BestBound a b (st.bi, st.bj, st.bs))
    _ _ ⟨fun j' => by simp, by constructor <;> simp [BestBound]⟩ a.length ?_
  intro m st hm ⟨hj2, hbb⟩
  unfold rowFold
  refine foldl_inv
    (fun (acc : FlmAcc) =>
      (∀ j', acc.j2 j' ≤ min (m + 1) (j' + 1)) ∧ BestBound a b (acc.bi, acc.bj, acc.bs))
    _ _ _ ⟨fun j' => by simp, hbb⟩ ?_
  intro acc j hjmem hPacc
  exact jstep_inv hm hj2 acc j (List.mem_range.mp hjmem) hPacc

lemma extendBack_bounds (a b : List Char) :
    ∀ (f : ℕ) (t : ℕ × ℕ × ℕ), BestBound a b t → BestBound a b (extendBack a b f t) := by
  intro f
  induction f with
  | zero => intro t h; exact h
  | succ g ih =>
    intro ⟨bi, bj, bs⟩ h
    rw [extendBack]
    split
    · refine ih _ ?_
      unfold BestBound at h ⊢
      simp only at h ⊢
      omega
    · exact h

lemma extendFwd_bounds (a b : List Char) :
    ∀ (f : ℕ) (t : ℕ × ℕ × ℕ), BestBound a b t → BestBound a b (extendFwd a b f t) := by
  intro f
  induction f with
  | zero => intro t h; exact h
  | succ g ih =>
    intro ⟨bi, bj, bs⟩ h
    rw [extendFwd]
    split
    · refine ih _ ?_
      unfold BestBound at h ⊢
      simp only at h ⊢
      omega
    · exact h

/-- The scan `find_longest_match` returns `(i, j, k)` with `i + k ≤ |a|`, `j + k ≤ |b|`. -/
lemma findLongestMatch_bounds (a b : List Char) :
    (findLongestMatch a b).1 + (findLongestMatch a b).2.2 ≤ a.length ∧
      (findLongestMatch a b).2.1 + (findLongestMatch a b).2.2 ≤ b.length := by
  unfold findLongestMatch
  exact extendFwd_bounds a b _ _ (extendBack_bounds a b _ _ (flmLoop_bounds a b).2)

/-- The total matched size never exceeds either string's length. -/
lemma matchesGo_le : ∀ (f : ℕ) (a b : List Char),
    matchesGo f a b ≤ min a.length b.length := by
  intro f
  induction f with
  | zero => intro a b; simp [matchesGo]
  | succ g ih =>
    intro a b
    rw [matchesGo]
    have hb := findLongestMatch_bounds a b
    split
    · omega
    · have h1 := ih (a.take (findLongestMatch a b).1) (b.take (findLongestMatch a b).2.1)
      have h2 := ih (a.drop ((findLongestMatch a b).1 + (findLongestMatch a b).2.2))
        (b.drop ((findLongestMatch a b).2.1 + (findLongestMatch a b).2.2))
      simp only [List.length_take, List.length_drop] at h1 h2
      omega

lemma seqMatches_le (a b : List Char) : seqMatches a b ≤ min a.length b.length :=
  matchesGo_le _ a b

/-- The `SequenceMatcher.ratio` lies in `[0, 1]`. -/
lemma seqSim_mem_unit (a b : List Char) : 0 ≤ seqSim a b ∧ seqSim a b ≤ 1 := by
  unfold seqSim
  split
  · norm_num
  · rename_i h
    have hpos : (0 : ℚ) < (a.length : ℚ) + (b.length : ℚ) := by
      have : 0 < a.length + b.length := Nat.pos_of_ne_zero h
      exact_mod_cast this
    constructor
    · positivity
    · rw [div_le_one hpos]
      have := seqMatches_le a b
      have h2 : 2 * seqMatches a b ≤ a.length + b.length := by omega
      exact_mod_cast h2

/-!  ### `find_longest_match` of a string against itself finds the whole string -/

lemma jstep_self_step {r : List Char} {old : ℕ → ℕ} {m : ℕ}
    (hold : ∀ j', old j' ≤ min m (j' + 1))
    (hdiag : 0 < m → old (m - 1) = m) :
    ∀ (q : ℕ) (acc : FlmAcc), q < r.length →
      ((∀ j', acc.j2 j' ≤ min (m + 1) (j' + 1)) ∧
        (q ≤ m → acc.bi = 0 ∧ acc.bj = 0 ∧ acc.bs = m) ∧
        (m < q → acc.bi = 0 ∧ acc.bj = 0 ∧ acc.bs = m + 1 ∧ acc.j2 m = m + 1)) →
      ((∀ j', (jstep old (r.getD m default) r m acc q).j2 j' ≤ min (m + 1) (j' + 1)) ∧
        (q + 1 ≤ m → (jstep old (r.getD m default) r m acc q).bi = 0 ∧
          (jstep old (r.getD m default) r m acc q).bj = 0 ∧
          (jstep old (r.getD m default) r m acc q).bs = m) ∧
        (m < q + 1 → (jstep old (r.getD m default) r m acc q).bi = 0 ∧
          (jstep old (r.getD m default) r m acc q).bj = 0 ∧
          (jstep old (r.getD m default) r m acc q).bs = m + 1 ∧
          (jstep old (r.getD m default) r m acc q).j2 m = m + 1)) := by
  intro q acc hq ⟨hb, hle, hgt⟩
  rcases Nat.lt_trichotomy q m with hlt | heq | hgtq
  · -- q < m : any update has k ≤ q + 1 ≤ m = acc.bs, so the best is untouched
    obtain ⟨hbi, hbj, hbs⟩ := hle hlt.le
    by_cases hchar : r.getD q default = r.getD m default
    · have hkle : jnew old q ≤ q + 1 := by
        unfold jnew
        split
        · omega
        · have := hold (q - 1); omega
      rw [jstep, if_pos hchar, if_neg (by omega)]
      refine ⟨?_, fun _ => ⟨hbi, hbj, hbs⟩, fun h => absurd h (by omega)⟩
      intro j'
      by_cases h : j' = q
      · subst h; simp only [if_true, if_pos]; omega
      · simpa [h] using hb j'
    · rw [jstep, if_neg hchar]
      exact ⟨hb, fun _ => ⟨hbi, hbj, hbs⟩, fun h => absurd h (by omega)⟩
  · -- q = m : the diagonal run reaches length m + 1 and strictly beats m
    subst heq
    obtain ⟨hbi, hbj, hbs⟩ := hle le_rfl
    have hk : jnew old q = q + 1 := by
      unfold jnew
      split
      · omega
      · have := hdiag (by omega); omega
    rw [jstep, if_pos rfl, if_pos (by omega)]
    refine ⟨?_, fun h => absurd h (by omega), fun _ => ⟨by simp only; omega,
      by simp only; omega, by simp only [hk], by simp [hk]⟩⟩
    intro j'
    by_cases h : j' = q
    · subst h; simp [hk]
    · simpa [h] using hb j'
  · -- m < q : any update has k ≤ m + 1 = acc.bs, so the best is untouched
    obtain ⟨hbi, hbj, hbs, hj2m⟩ := hgt hgtq
    by_cases hchar : r.getD q default = r.getD m default
    · have hq1 : q ≠ 0 := by omega
      have hkle : jnew old q ≤ min (m + 1) (q + 1) := by
        unfold jnew
        rw [if_neg hq1]
        have := hold (q - 1); omega
      rw [jstep, if_pos hchar, if_neg (by omega)]
      refine ⟨?_, fun h => absurd h (by omega),
        fun _ => ⟨hbi, hbj, hbs, by simp only [if_neg (by omega : m ≠ q)]; exact hj2m⟩⟩
      intro j'
      by_cases h : j' = q
      · subst h; simpa using hkle
      · simpa [h] using hb j'
    · rw [jstep, if_neg hchar]
      exact ⟨hb, fun h => absurd h (by omega), fun _ => ⟨hbi, hbj, hbs, hj2m⟩⟩

/-- The main loop applied to `(r, r)` ends with best block `(0, 0, |r|)`. -/
lemma flmLoop_self (r : List Char) :
    (flmLoop r r).bi = 0 ∧ (flmLoop r r).bj = 0 ∧ (flmLoop r r).bs = r.length := by
  unfold flmLoop
  have h := foldl_range_ind
    (fun m (st : FlmAcc) =>
      (∀ j', st.j2 j' ≤ min m (j' + 1)) ∧ (0 < m → st.j2 (m - 1) = m) ∧
        st.bi = 0 ∧ st.bj = 0 ∧ st.bs = m)
    (fun st i => rowFold r (r.getD i default) i st) ⟨fun _ => 0, 0, 0, 0⟩
    ⟨fun j' => by simp, by simp, rfl, rfl, rfl⟩ r.length ?_
  · exact ⟨h.2.2.1, h.2.2.2.1, h.2.2.2.2⟩
  · intro m st hm ⟨hold, hdiag, hbi, hbj, hbs⟩
    unfold rowFold
    have hin := foldl_range_ind
      (fun q (acc : FlmAcc) =>
        (∀ j', acc.j2 j' ≤ min (m + 1) (j' + 1)) ∧
          (q ≤ m → acc.bi = 0 ∧ acc.bj = 0 ∧ acc.bs = m) ∧
          (m < q → acc.bi = 0 ∧ acc.bj = 0 ∧ acc.bs = m + 1 ∧ acc.j2 m = m + 1))
      (jstep st.j2 (r.getD m default) r m) ⟨fun _ => 0, st.bi, st.bj, st.bs⟩
      ⟨fun j' => by simp, fun _ => ⟨hbi, hbj, hbs⟩, fun hc => absurd hc (by omega)⟩
      r.length (fun q acc hq hP => jstep_self_step hold hdiag q acc hq hP)
    obtain ⟨hj2, _, hfin⟩ := hin
    obtain ⟨hbi', hbj', hbs', hj2m⟩ := hfin hm
    exact ⟨hj2, fun _ => by simpa using hj2m, hbi', hbj', hbs'⟩

/-- Applied to `(r, r)`, `find_longest_match` returns the whole string. -/
lemma findLongestMatch_self (r : List Char) (hr : r ≠ []) :
    findLongestMatch r r = (0, 0, r.length) := by
  unfold findLongestMatch
  obtain ⟨h1, h2, h3⟩ := flmLoop_self r
  rw [h1, h2, h3]
  have hback : extendBack r r 0 (0, 0, r.length) = (0, 0, r.length) := rfl
  rw [hback]
  obtain ⟨k, hk⟩ : ∃ k, r.length = k + 1 := by
    cases r with
    | nil => exact absurd rfl hr
    | cons x xs => exact ⟨xs.length, by simp⟩
  rw [hk, extendFwd, if_neg (by rw [hk]; omega)]

lemma findLongestMatch_nil : findLongestMatch [] [] = (0, 0, 0) := rfl

lemma matchesGo_nil (f : ℕ) : matchesGo f [] [] = 0 := by
  cases f with
  | zero => rfl
  | succ g => rw [matchesGo, findLongestMatch_nil]; simp

/-- The total matched size of a nonempty string against itself is its length. -/
lemma seqMatches_self (r : List Char) (hr : r ≠ []) : seqMatches r r = r.length := by
  unfold seqMatches
  have hlen : r.length ≠ 0 := by simpa using hr
  obtain ⟨k, hk⟩ : ∃ k, r.length + r.length = k + 1 := ⟨r.length + r.length - 1, by omega⟩
  rw [hk, matchesGo, findLongestMatch_self r hr]
  simp only [List.take_zero, Nat.zero_add, List.drop_length, matchesGo_nil]
  rw [if_neg hlen]
  omega

/-- The `SequenceMatcher.ratio` of a nonempty string against itself is `1`. -/
lemma seqSim_self (r : List Char) (hr : r ≠ []) : seqSim r r = 1 := by
  have hlen : r.length ≠ 0 := by simpa using hr
  unfold seqSim
  rw [if_neg (by omega), seqMatches_self r hr,
    div_eq_one_iff_eq (by exact_mod_cast (by omega : r.length + r.length ≠ 0))]
  ring

/-- The `similarity_score` of a nonempty string against itself is `1`. -/
lemma similarity_score_self (s : List Char) (hs : s ≠ []) : similarity_score s s = 1 := by
  unfold similarity_score
  rw [if_neg (by simp [hs])]
  exact seqSim_self _ (by simpa [pyUpper] using hs)

/-!  ### Levenshtein ratio: symmetry and range -/

lemma lev2_nil_right : ∀ (b : List Char), lev2 b [] = b.length := by
  intro b
  cases b with
  | nil => rw [lev2]
  | cons x xs => rw [lev2]

/-- The weighted edit distance is symmetric. -/
lemma lev2_comm (a b : List Char) : lev2 a b = lev2 b a := by
  suffices h : ∀ (n : ℕ) (a b : List Char), a.length + b.length = n → lev2 a b = lev2 b a from
    h _ a b rfl
  intro n
  induction n using Nat.strong_induction_on with
  | _ n ih =>
    intro a b hab
    match a, b with
    | [], b => rw [lev2_nil_right, lev2]
    | x :: xs, [] => rw [lev2_nil_right, lev2]
    | x :: xs, y :: ys =>
      rw [lev2, lev2]
      have h1 := ih (xs.length + (y :: ys).length) (by simp at hab ⊢; omega) xs (y :: ys) rfl
      have h2 := ih ((x :: xs).length + ys.length) (by simp at hab ⊢; omega) (x :: xs) ys rfl
      have h3 := ih (xs.length + ys.length) (by simp at hab ⊢; omega) xs ys rfl
      have h4 : (if x = y then 0 else 2) = (if y = x then 0 else 2) := by
        by_cases h : x = y
        · simp [h]
        · rw [if_neg h, if_neg (fun hyx => h hyx.symm)]
      rw [h1, h2, h3, h4]
      omega

/-- The weighted edit distance never exceeds the summed lengths. -/
lemma lev2_le_sum (a b : List Char) : lev2 a b ≤ a.length + b.length := by
  suffices h : ∀ (n : ℕ) (a b : List Char), a.length + b.length = n →
      lev2 a b ≤ a.length + b.length from h _ a b rfl
  intro n
  induction n using Nat.strong_induction_on with
  | _ n ih =>
    intro a b hab
    match a, b with
    | [], b => rw [lev2]; simp
    | x :: xs, [] => rw [lev2_nil_right]; simp
    | x :: xs, y :: ys =>
      rw [lev2]
      have h1 := ih (xs.length + (y :: ys).length) (by simp at hab ⊢; omega) xs (y :: ys) rfl
      simp only [List.length_cons] at h1 ⊢
      omega

/-- The `Levenshtein.ratio` is symmetric. -/
lemma levSim_comm (a b : List Char) : levSim a b = levSim b a := by
  unfold levSim
  rw [lev2_comm]
  rcases Nat.eq_zero_or_pos (a.length + b.length) with h | h
  · rw [if_pos h, if_pos (by omega)]
  · rw [if_neg (by omega), if_neg (by omega)]
    ring_nf

/-- The `Levenshtein.ratio` lies in `[0, 1]`. -/
lemma levSim_mem_unit (a b : List Char) : 0 ≤ levSim a b ∧ levSim a b ≤ 1 := by
  unfold levSim
  split
  · norm_num
  · rename_i h
    have hpos : (0 : ℚ) < (a.length : ℚ) + (b.length : ℚ) := by
      have : 0 < a.length + b.length := Nat.pos_of_ne_zero h
      exact_mod_cast this
    have hle : (lev2 a b : ℚ) ≤ (a.length : ℚ) + (b.length : ℚ) := by
      exact_mod_cast lev2_le_sum a b
    have hnn : (0 : ℚ) ≤ (lev2 a b : ℚ) := by positivity
    constructor
    · apply div_nonneg _ hpos.le
      linarith
    · rw [div_le_one hpos]
      linarith

/-!  ### `similarity_score` and `calculate_similarity`: basic properties -/

lemma similarity_score_mem_unit (s1 s2 : List Char) :
    0 ≤ similarity_score s1 s2 ∧ similarity_score s1 s2 ≤ 1 := by
  unfold similarity_score
  split
  · norm_num
  · exact seqSim_mem_unit _ _

lemma similarity_score_nil_left (s : List Char) : similarity_score [] s = 0 := by
  unfold similarity_score
  rw [if_pos (Or.inl rfl)]

lemma similarity_score_nil_right (s : List Char) : similarity_score s [] = 0 := by
  unfold similarity_score
  rw [if_pos (Or.inr rfl)]

lemma calculate_similarity_comm (a b : Option (List Char)) :
    calculate_similarity a b = calculate_similarity b a := by
  match a, b with
  | none, none => rfl
  | none, some y => rfl
  | some x, none => rfl
  | some x, some y => exact levSim_comm _ _

lemma calculate_similarity_mem_unit (a b : Option (List Char)) :
    0 ≤ calculate_similarity a b ∧ calculate_similarity a b ≤ 1 := by
  match a, b with
  | none, _ => exact ⟨le_refl 0, zero_le_one⟩
  | some x, none => exact ⟨le_refl 0, zero_le_one⟩
  | some x, some y => exact levSim_mem_unit _ _

/-!  ### Bounds on the individual score credits -/

lemma refCredit_le (r : ℚ) : refCredit r ≤ 13/20 := by
  unfold refCredit
  split_ifs <;> linarith

lemma amount_percent_diff_nonneg (g t : ℚ) : 0 ≤ amount_percent_diff g t := by
  unfold amount_percent_diff
  split
  · positivity
  · norm_num

lemma amountCredit_le (g t : ℚ) : amountCredit g t ≤ 1/4 := by
  have h0 := amount_percent_diff_nonneg g t
  unfold amountCredit
  split_ifs with h1 h2 h3
  · exact le_refl _
  · nlinarith
  · have hmax : max 0 (1 - amount_percent_diff g t / (1/5)) ≤ 1 :=
      max_le (by norm_num) (by linarith)
    have hmax0 : 0 ≤ max 0 (1 - amount_percent_diff g t / (1/5)) := le_max_left 0 _
    nlinarith
  · norm_num

lemma dateCredit_le (d1 d2 : ℤ) : dateCredit d1 d2 ≤ 2/25 := by
  unfold dateCredit
  split_ifs with h1 h2
  · exact le_refl _
  · have habs : (0 : ℚ) ≤ |(d1 : ℚ) - (d2 : ℚ)| := abs_nonneg _
    have hmax : max 0 (1 - |(d1 : ℚ) - (d2 : ℚ)| / 30) ≤ 1 :=
      max_le (by norm_num) (by linarith)
    have hmax0 : (0 : ℚ) ≤ max 0 (1 - |(d1 : ℚ) - (d2 : ℚ)| / 30) := le_max_left 0 _
    nlinarith
  · norm_num

lemma vendorCredit_le (v : ℚ) : vendorCredit v ≤ 1/50 := by
  unfold vendorCredit
  split_ifs <;> linarith

/-- No pair of records scores above the full weight budget `1.0`. -/
lemma compositeScore_le_one (g t : Rec) : compositeScore g t ≤ 1 := by
  unfold compositeScore
  have h1 := refCredit_le (similarity_score g.reference t.reference)
  have h2 := amountCredit_le g.amount t.amount
  have h3 := dateCredit_le g.date t.date
  have h4 := vendorCredit_le (similarity_score g.vendor t.vendor)
  linarith

/-- A record with nonempty reference and vendor and positive amount scores
exactly `1.0` against itself. -/
lemma compositeScore_self (r : Rec) (href : r.reference ≠ []) (hven : r.vendor ≠ [])
    (hamt : 0 < r.amount) : compositeScore r r = 1 := by
  unfold compositeScore
  rw [similarity_score_self _ href, similarity_score_self _ hven]
  have h1 : refCredit 1 = 13/20 := by unfold refCredit; rw [if_pos (by norm_num)]
  have hpd : amount_percent_diff r.amount r.amount = 0 := by
    unfold amount_percent_diff
    rw [if_pos (by simpa using hamt)]
    simp
  have h2 : amountCredit r.amount r.amount = 1/4 := by
    unfold amountCredit
    rw [hpd, if_pos (by norm_num)]
  have h3 : dateCredit r.date r.date = 2/25 := by
    unfold dateCredit
    rw [if_pos (by simp)]
  have h4 : vendorCredit 1 = 1/50 := by unfold vendorCredit; rw [if_pos (by norm_num)]
  rw [h1, h2, h3, h4]
  norm_num

/-!  ### Characterisation of the inner greedy scan -/

/-- Invariant of the inner scan after having seen the candidate list `seen`:
either no best candidate was recorded and every unconsumed seen candidate is
below threshold, or the recorded best is an unconsumed seen candidate at or
above threshold that weakly dominates every unconsumed seen candidate and
strictly dominates every unconsumed candidate seen before it. -/
def ScanInv (thr : ℚ) (g : Rec) (consumed : List ℕ) (seen : List (ℕ × Rec)) :
    Option (ℕ × Rec) × ℚ → Prop
  | (none, z) => z = 0 ∧ ∀ p ∈ seen, p.1 ∉ consumed → compositeScore g p.2 < thr
  | (some q, s) => q.1 ∉ consumed ∧ s = compositeScore g q.2 ∧ thr ≤ s ∧
      (∀ p ∈ seen, p.1 ∉ consumed → compositeScore g p.2 ≤ s) ∧
      ∃ pre post, seen = pre ++ q :: post ∧
        ∀ p ∈ pre, p.1 ∉ consumed → compositeScore g p.2 < s

lemma scanGo_inv {thr : ℚ} {g : Rec} {consumed : List ℕ} (hthr : 0 < thr) :
    ∀ (L seen : List (ℕ × Rec)) (acc : Option (ℕ × Rec) × ℚ),
      ScanInv thr g consumed seen acc →
      ScanInv thr g consumed (seen ++ L) (scanGo thr g consumed L acc) := by
  intro L
  induction L with
  | nil => intro seen acc h; simpa using h
  | cons p rest ih =>
    intro seen acc h
    have hstep : ∀ acc', ScanInv thr g consumed (seen ++ [p]) acc' →
        ScanInv thr g consumed (seen ++ p :: rest) (scanGo thr g consumed rest acc') := by
      intro acc' h'
      have := ih (seen ++ [p]) acc' h'
      simpa using this
    obtain ⟨o, z⟩ := acc
    rw [scanGo]
    by_cases hc : p.1 ∈ consumed
    · rw [if_pos hc]
      refine hstep (o, z) ?_
      cases o with
      | none =>
        obtain ⟨hz, hall⟩ := h
        refine ⟨hz, fun q hq hqc => ?_⟩
        rcases List.mem_append.mp hq with hq | hq
        · exact hall q hq hqc
        · simp only [List.mem_singleton] at hq
          subst hq; exact absurd hc hqc
      | some q =>
        obtain ⟨hqc, hs, hts, hall, pre, post, hsplit, hpre⟩ := h
        refine ⟨hqc, hs, hts, fun r hr hrc => ?_,
          pre, post ++ [p], by rw [hsplit]; simp, hpre⟩
        rcases List.mem_append.mp hr with hr | hr
        · exact hall r hr hrc
        · simp only [List.mem_singleton] at hr
          subst hr; exact absurd hc hrc
    · rw [if_neg hc]
      by_cases hcond : z < compositeScore g p.2 ∧ thr ≤ compositeScore g p.2
      · rw [if_pos hcond]
        refine hstep (some p, compositeScore g p.2) ?_
        refine ⟨hc, rfl, hcond.2, fun r hr hrc => ?_, seen, [], rfl, fun r hr hrc => ?_⟩
        · rcases List.mem_append.mp hr with hr | hr
          · cases o with
            | none =>
              obtain ⟨hz, hall⟩ := h
              have := hall r hr hrc
              have hz' : z = 0 := hz
              linarith [hcond.2]
            | some q =>
              obtain ⟨_, _, _, hall, _⟩ := h
              have := hall r hr hrc
              linarith [hcond.1]
          · simp only [List.mem_singleton] at hr
            subst hr; exact le_refl _
        · cases o with
          | none =>
            obtain ⟨hz, hall⟩ := h
            have := hall r hr hrc
            linarith [hcond.2]
          | some q =>
            obtain ⟨_, _, _, hall, _⟩ := h
            have := hall r hr hrc
            linarith [hcond.1]
      · rw [if_neg hcond]
        refine hstep (o, z) ?_
        cases o with
        | none =>
          obtain ⟨hz, hall⟩ := h
          subst hz
          refine ⟨rfl, fun q hq hqc => ?_⟩
          rcases List.mem_append.mp hq with hq | hq
          · exact hall q hq hqc
          · simp only [List.mem_singleton] at hq
            subst hq
            by_contra hge
            push_neg at hge
            exact hcond ⟨lt_of_lt_of_le hthr hge, hge⟩
        | some q =>
          obtain ⟨hqc, hs, hts, hall, pre, post, hsplit, hpre⟩ := h
          refine ⟨hqc, hs, hts, fun r hr hrc => ?_,
            pre, post ++ [p], by rw [hsplit]; simp, hpre⟩
          rcases List.mem_append.mp hr with hr | hr
          · exact hall r hr hrc
          · simp only [List.mem_singleton] at hr
            subst hr
            rcases not_and_or.mp hcond with hle | hlt
            · push_neg at hle
              exact hle
            · push_neg at hlt
              linarith

/-- If the inner scan commits no candidate, every unconsumed tally row scores
below the threshold. -/
lemma innerScan_none {thr : ℚ} (hthr : 0 < thr) {g : Rec} {tally : List Rec}
    {consumed : List ℕ} (h : innerScan thr g tally consumed = none) :
    ∀ p ∈ tally.enum, p.1 ∉ consumed → compositeScore g p.2 < thr := by
  have hinv := @scanGo_inv thr g consumed hthr tally.enum [] (none, 0) ⟨rfl, by simp⟩
  rw [List.nil_append] at hinv
  unfold innerScan at h
  rcases hres : scanGo thr g consumed tally.enum (none, 0) with ⟨o, z⟩
  rw [hres] at h hinv
  cases o with
  | some q => exact absurd h (by simp)
  | none => exact hinv.2

/-- If the inner scan commits the candidate `q` with score `s`, then `q` is an
unconsumed tally row, `s` is its composite score, `s` clears the threshold,
`s` weakly dominates every unconsumed tally row, and `q` is the earliest
unconsumed tally row attaining `s`. -/
lemma length_enum {α : Type} (l : List α) : l.enum.length = l.length := by
  rw [List.enum_eq_enumFrom]
  exact List.enumFrom_length

lemma get_enum {α : Type} (l : List α) (i : ℕ) (h : i < l.enum.length)
    (h' : i < l.length) : l.enum.get ⟨i, h⟩ = (i, l.get ⟨i, h'⟩) := by
  simp


lemma mem_enum_iff {α : Type} {p : ℕ × α} {l : List α} :
    p ∈ l.enum ↔ ∃ h : p.1 < l.length, l.get ⟨p.1, h⟩ = p.2 := by
  obtain ⟨p1, p2⟩ := p
  constructor
  · intro h
    obtain ⟨i, hi, hget⟩ := List.getElem_of_mem h
    have hget' : l.enum.get ⟨i, hi⟩ = (p1, p2) := by
      rw [List.get_eq_getElem]
      exact hget
    rw [get_enum l i hi (by simpa [length_enum] using hi)] at hget'
    simp only [Prod.mk.injEq] at hget'
    obtain ⟨rfl, hval⟩ := hget'
    exact ⟨by simpa [length_enum] using hi, hval⟩
  · intro ⟨h, hval⟩
    have hlt : p1 < l.enum.length := by simpa [length_enum] using h
    have heq : l.enum.get ⟨p1, hlt⟩ = (p1, p2) := by
      rw [get_enum l p1 hlt h]
      simp only [Prod.mk.injEq, true_and]
      exact hval
    rw [← heq]
    exact List.get_mem l.enum p1 hlt

/-- If the inner scan commits the candidate `q` with score `s`, then `q` is an
unconsumed tally row, `s` is its composite score, `s` clears the threshold,
`s` weakly dominates every unconsumed tally row, and `q` is the earliest
unconsumed tally row attaining `s`. -/
lemma innerScan_some {thr : ℚ} (hthr : 0 < thr) {g : Rec} {tally : List Rec}
    {consumed : List ℕ} {q : ℕ × Rec} {s : ℚ}
    (h : innerScan thr g tally consumed = some (q, s)) :
    q ∈ tally.enum ∧ q.1 ∉ consumed ∧ s = compositeScore g q.2 ∧ thr ≤ s ∧
      (∀ p ∈ tally.enum, p.1 ∉ consumed → compositeScore g p.2 ≤ s) ∧
      (∀ p ∈ tally.enum, p.1 ∉ consumed → compositeScore g p.2 = s → q.1 ≤ p.1) := by
  have hinv := @scanGo_inv thr g consumed hthr tally.enum [] (none, 0) ⟨rfl, by simp⟩
  rw [List.nil_append] at hinv
  unfold innerScan at h
  rcases hres : scanGo thr g consumed tally.enum (none, 0) with ⟨o, z⟩
  rw [hres] at h hinv
  cases o with
  | none => exact absurd h (by simp)
  | some q' =>
    simp only [Option.some.injEq, Prod.mk.injEq] at h
    obtain ⟨rfl, rfl⟩ := h
    obtain ⟨hqc, hs, hts, hall, pre, post, hsplit, hpre⟩ := hinv
    have hqmem : q' ∈ tally.enum := by rw [hsplit]; simp
    refine ⟨hqmem, hqc, hs, hts, hall, fun p hp hpc hps => ?_⟩
    by_contra hql
    push_neg at hql
    -- q' sits at position pre.length of the enumeration, so q'.1 = pre.length
    have hlen : pre.length < tally.enum.length := by rw [hsplit]; simp
    have hq2 : tally.enum.get ⟨pre.length, hlen⟩ = q' := by
      rw [List.get_eq_getElem]
      rw [List.getElem_of_eq hsplit]
      rw [List.getElem_append_right (le_refl pre.length)]
      simp
    have hq1 : q'.1 = pre.length := by
      rw [get_enum tally pre.length hlen (by simpa [length_enum] using hlen)] at hq2
      have := congrArg Prod.fst hq2
      simpa using this.symm
    -- p is the enum entry at its own index, which lies inside pre
    obtain ⟨hplt, hpval⟩ := mem_enum_iff.mp hp
    have hplt' : p.1 < tally.enum.length := by simpa [length_enum] using hplt
    have hpenum : tally.enum.get ⟨p.1, hplt'⟩ = p := by
      rw [get_enum tally p.1 hplt' hplt]
      obtain ⟨p1, p2⟩ := p
      simp only at hpval ⊢
      rw [hpval]
    have hppre : p.1 < pre.length := by omega
    have hsame : tally.enum.get ⟨p.1, hplt'⟩ = pre.get ⟨p.1, hppre⟩ := by
      rw [List.get_eq_getElem, List.get_eq_getElem]
      rw [List.getElem_of_eq hsplit]
      exact List.getElem_append_left hppre
    have hmem : p ∈ pre := by
      rw [← hsame.symm.trans hpenum]
      exact List.get_mem pre p.1 hppre
    have := hpre p hmem hpc
    linarith [hps.ge]

/-!  ### Invariants of the outer matching loop -/

/-- Specification of the committed match list: each entry was the committed
best candidate of its own scan — an unconsumed tally row whose composite score
clears the threshold, weakly dominates every tally row not consumed by the
earlier matches, and is the earliest unconsumed row attaining that score. -/
def MatchSpec (thr : ℚ) (tally : List Rec) (ms : List MatchEntry) : Prop :=
  ∀ (k : ℕ) (hk : k < ms.length),
    (ms.get ⟨k, hk⟩).tally_idx ∉ (ms.take k).map MatchEntry.tally_idx ∧
    ((ms.get ⟨k, hk⟩).tally_idx, (ms.get ⟨k, hk⟩).tally_data) ∈ tally.enum ∧
    (ms.get ⟨k, hk⟩).match_score =
      compositeScore (ms.get ⟨k, hk⟩).gstr2b_data (ms.get ⟨k, hk⟩).tally_data ∧
    thr ≤ (ms.get ⟨k, hk⟩).match_score ∧
    (∀ p ∈ tally.enum, p.1 ∉ (ms.take k).map MatchEntry.tally_idx →
      compositeScore (ms.get ⟨k, hk⟩).gstr2b_data p.2 ≤ (ms.get ⟨k, hk⟩).match_score) ∧
    (∀ p ∈ tally.enum, p.1 ∉ (ms.take k).map MatchEntry.tally_idx →
      compositeScore (ms.get ⟨k, hk⟩).gstr2b_data p.2 = (ms.get ⟨k, hk⟩).match_score →
      (ms.get ⟨k, hk⟩).tally_idx ≤ p.1)

lemma MatchSpec_append {thr : ℚ} {tally : List Rec} {ms : List MatchEntry}
    (hms : MatchSpec thr tally ms) (hthr : 0 < thr) {g : Rec} (i : ℕ)
    {q : ℕ × Rec} {s : ℚ}
    (hscan : innerScan thr g tally (ms.map MatchEntry.tally_idx) = some (q, s)) :
    MatchSpec thr tally (ms ++ [⟨i, q.1, g, q.2, s⟩]) := by
  intro k hk
  simp only [List.length_append, List.length_singleton] at hk
  rcases Nat.lt_or_ge k ms.length with hlt | hge
  · have htake : (ms ++ [(⟨i, q.1, g, q.2, s⟩ : MatchEntry)]).take k = ms.take k := by
      rw [List.take_append_of_le_length hlt.le]
    have hget : (ms ++ [(⟨i, q.1, g, q.2, s⟩ : MatchEntry)]).get ⟨k, by simp; omega⟩ =
        ms.get ⟨k, hlt⟩ := by
      rw [List.get_eq_getElem, List.get_eq_getElem]
      exact List.getElem_append_left hlt
    rw [htake, hget]
    exact hms k hlt
  · have hk' : k = ms.length := by omega
    subst hk'
    have htake : (ms ++ [(⟨i, q.1, g, q.2, s⟩ : MatchEntry)]).take ms.length = ms :=
      List.take_left ms _
    have hget : (ms ++ [(⟨i, q.1, g, q.2, s⟩ : MatchEntry)]).get ⟨ms.length, by simp⟩ =
        ⟨i, q.1, g, q.2, s⟩ := by
      rw [List.get_eq_getElem]
      exact List.getElem_concat_length ms _ ms.length rfl _
    rw [htake, hget]
    obtain ⟨hqmem, hqcons, hqs, hqthr, hmax, htie⟩ := innerScan_some hthr hscan
    exact ⟨hqcons, hqmem, hqs, hqthr, fun p hp hpc => hmax p hp hpc,
      fun p hp hpc hps => htie p hp hpc hps⟩

/-- The running invariant of the outer loop: the two consumed-index lists
mirror the match list, carry no duplicates, index into the respective inputs,
and the matches satisfy `MatchSpec`. -/
def StInv (thr : ℚ) (n : ℕ) (tally : List Rec) (st : RState) : Prop :=
  st.matchedA = st.matches'.map MatchEntry.gstr2b_idx ∧
  st.matchedB = st.matches'.map MatchEntry.tally_idx ∧
  st.matchedA.Nodup ∧ st.matchedB.Nodup ∧
  (∀ i ∈ st.matchedA, i < n) ∧
  (∀ j ∈ st.matchedB, j < tally.length) ∧
  MatchSpec thr tally st.matches'

lemma runA_inv {thr : ℚ} {n : ℕ} {tally : List Rec} (hthr : 0 < thr) :
    ∀ (L : List (ℕ × Rec)) (st : RState),
      (L.map Prod.fst).Pairwise (· < ·) →
      (∀ p ∈ L, p.1 < n) →
      (∀ i ∈ st.matchedA, ∀ p ∈ L, i < p.1) →
      StInv thr n tally st →
      StInv thr n tally (runA thr tally L st) := by
  intro L
  induction L with
  | nil => intro st _ _ _ h; exact h
  | cons p rest ih =>
    intro st hpair hlt hsep h
    have hpair' : (rest.map Prod.fst).Pairwise (· < ·) := by
      simp only [List.map_cons, List.pairwise_cons] at hpair
      exact hpair.2
    have hhead : ∀ r ∈ rest, p.1 < r.1 := by
      simp only [List.map_cons, List.pairwise_cons] at hpair
      intro r hr
      exact hpair.1 r.1 (List.mem_map_of_mem Prod.fst hr)
    rw [runA]
    rcases hscan : innerScan thr p.2 tally st.matchedB with _ | ⟨q, s⟩
    · exact ih st hpair' (fun r hr => hlt r (List.mem_cons_of_mem p hr))
        (fun i hi r hr => hsep i hi r (List.mem_cons_of_mem p hr)) h
    · obtain ⟨hA, hB, hAnd, hBnd, hAlt, hBlt, hms⟩ := h
      rw [hB] at hscan
      obtain ⟨hqmem, hqcons, hqs, hqthr, _, _⟩ := innerScan_some hthr hscan
      obtain ⟨hqlt, _⟩ := mem_enum_iff.mp hqmem
      apply ih _ hpair' (fun r hr => hlt r (List.mem_cons_of_mem p hr))
      · -- separation for the extended matchedA list
        intro i hi r hr
        simp only [List.mem_append, List.mem_singleton] at hi
        rcases hi with hi | hi
        · exact hsep i hi r (List.mem_cons_of_mem p hr)
        · subst hi; exact hhead r hr
      · -- the state invariant for the extended state
        refine ⟨by simp [hA], by simp [hB], ?_, ?_, ?_, ?_, ?_⟩
        · have hfresh : p.1 ∉ st.matchedA := fun hmem =>
            absurd rfl (hsep p.1 hmem p (List.mem_cons_self p rest)).ne
          simp [List.nodup_append, hAnd, hfresh]
        · have hfresh : q.1 ∉ st.matchedB := by rw [hB]; exact hqcons
          simp [List.nodup_append, hBnd, hfresh]
        · intro i hi
          simp only [List.mem_append, List.mem_singleton] at hi
          rcases hi with hi | hi
          · exact hAlt i hi
          · subst hi; exact hlt p (List.mem_cons_self p rest)
        · intro j hj
          simp only [List.mem_append, List.mem_singleton] at hj
          rcases hj with hj | hj
          · exact hBlt j hj
          · subst hj; exact hqlt
        · rw [← hB] at hscan
          have := MatchSpec_append hms hthr p.1 (by rw [hB] at hscan; exact hscan)
          simpa using this

/-- A run against an empty tally side never changes the state. -/
lemma runA_nil_tally (thr : ℚ) : ∀ (L : List (ℕ × Rec)) (st : RState),
    runA thr [] L st = st := by
  intro L
  induction L with
  | nil => intro st; rfl
  | cons p rest ih =>
    intro st
    rw [runA]
    have hnone : innerScan thr p.2 [] st.matchedB = none := rfl
    rw [hnone]
    exact ih st

/-!  ### Counting helpers for the partition invariant -/

lemma countP_range_mem (n : ℕ) (m : List ℕ) (hnd : m.Nodup) (hlt : ∀ x ∈ m, x < n) :
    ((List.range n).filter (fun x => decide (x ∈ m))).length = m.length := by
  have hfnd : ((List.range n).filter (fun x => decide (x ∈ m))).Nodup :=
    (List.nodup_range n).filter _
  have hset : ((List.range n).filter (fun x => decide (x ∈ m))).toFinset = m.toFinset := by
    ext x
    simp only [List.mem_toFinset, List.mem_filter, List.mem_range, decide_eq_true_eq]
    exact ⟨fun h => h.2, fun h => ⟨hlt x h, h⟩⟩
  exact (List.perm_of_nodup_nodup_toFinset_eq hfnd hnd hset).length_eq

lemma filter_enum_mem_length {α : Type} (l : List α) (m : List ℕ)
    (hnd : m.Nodup) (hlt : ∀ x ∈ m, x < l.length) :
    (l.enum.filter (fun p => decide (p.1 ∈ m))).length = m.length := by
  have h1 : (l.enum.filter (fun p => decide (p.1 ∈ m))).length =
      List.countP (fun p => decide (p.1 ∈ m)) l.enum :=
    (List.countP_eq_length_filter _ _).symm
  have h2 : List.countP (fun x => decide (x ∈ m)) (l.enum.map Prod.fst) =
      List.countP (fun p => decide (p.1 ∈ m)) l.enum := List.countP_map _ _ _
  have h3 : l.enum.map Prod.fst = List.range l.length := by
    rw [List.enum_eq_enumFrom, List.enumFrom_map_fst, ← List.range_eq_range']
  rw [h1, ← h2, h3, List.countP_eq_length_filter]
  exact countP_range_mem l.length m hnd hlt

lemma filter_enum_split_length {α : Type} (l : List α) (m : List ℕ) :
    l.length = (l.enum.filter (fun p => decide (p.1 ∈ m))).length +
      (l.enum.filter (fun p => decide (p.1 ∉ m))).length := by
  have h := @List.length_eq_length_filter_add _ l.enum (fun p => decide (p.1 ∈ m))
  have hlen : l.enum.length = l.length := length_enum l
  have hcongr : l.enum.filter (fun p => !decide (p.1 ∈ m)) =
      l.enum.filter (fun p => decide (p.1 ∉ m)) := by
    apply List.filter_congr
    intro p _
    simp [decide_not]
  rw [hlen] at h
  rw [h, hcongr]

/-!  ### Concrete records and score evaluations used in witnesses and
counterexamples -/

/-- Evaluation helper: a concrete `similarity_score` from a concrete matched
count and lengths. -/
lemma similarity_score_eval (s1 s2 : List Char) (m n1 n2 : ℕ) (v : ℚ)
    (h1 : s1 ≠ []) (h2 : s2 ≠ [])
    (hm : seqMatches (pyUpper s1) (pyUpper s2) = m)
    (hn1 : s1.length = n1) (hn2 : s2.length = n2)
    (hv : (2 * m : ℚ) / (n1 + n2) = v) :
    similarity_score s1 s2 = v := by
  rw [similarity_score, seqSim, if_neg (by simp [h1, h2]), hm,
    if_neg (by simp [pyUpper, h1, h2])]
  simp only [pyUpper, List.length_map, hn1, hn2]
  exact hv

/-- GSTR2B record whose reference agrees with `rTally` at similarity `0.9`. -/
def rNear : Rec := ⟨"AAAAAAAAAC".toList, 100, 0, []⟩

/-- GSTR2B record whose reference agrees with `rTally` exactly. -/
def rHigh : Rec := ⟨"AAAAAAAAAB".toList, 100, 0, []⟩

/-- Tally record matched by `rNear` at score `0.55` and by `rHigh` at `0.65`. -/
def rTally : Rec := ⟨"AAAAAAAAAB".toList, 1000, 100, []⟩

/-- Invoice `INV001` on 2025-09-01 (day 0 of the embedding). -/
def invA : Rec := ⟨"INV001".toList, 1000, 0, "ACME".toList⟩

/-- Invoice `INV001` on 2025-10-15, 44 days later. -/
def invB : Rec := ⟨"INV001".toList, 1000, 44, "ACME".toList⟩

lemma compositeScore_rNear : compositeScore rNear rTally = 11/20 := by
  unfold compositeScore rNear rTally
  dsimp only
  rw [similarity_score_eval _ _ 9 10 10 (9/10) (by decide) (by decide) (by decide) (by decide)
    (by decide) (by norm_num)]
  rw [similarity_score_nil_left]
  rw [show amountCredit (100 : ℚ) 1000 = 0 by unfold amountCredit amount_percent_diff; norm_num]
  rw [show dateCredit (0 : ℤ) 100 = 0 by unfold dateCredit; norm_num]
  rw [show vendorCredit 0 = 0 by unfold vendorCredit; norm_num]
  rw [show refCredit ((9 : ℚ)/10) = 11/20 by unfold refCredit; norm_num]
  norm_num

lemma compositeScore_rHigh : compositeScore rHigh rTally = 13/20 := by
  unfold compositeScore rHigh rTally
  dsimp only
  rw [similarity_score_self _ (by decide), similarity_score_nil_left]
  rw [show refCredit 1 = 13/20 by unfold refCredit; norm_num]
  rw [show amountCredit (100 : ℚ) 1000 = 0 by unfold amountCredit amount_percent_diff; norm_num]
  rw [show dateCredit (0 : ℤ) 100 = 0 by unfold dateCredit; norm_num]
  rw [show vendorCredit 0 = 0 by unfold vendorCredit; norm_num]
  norm_num

lemma compositeScore_inv : compositeScore invA invB = 23/25 := by
  unfold compositeScore invA invB
  dsimp only
  rw [similarity_score_self _ (by decide), similarity_score_self _ (by decide)]
  rw [show refCredit 1 = 13/20 by unfold refCredit; norm_num]
  rw [show amountCredit (1000 : ℚ) 1000 = 0 + 1/4 - 0 by
    unfold amountCredit amount_percent_diff; norm_num]
  rw [show dateCredit (0 : ℤ) 44 = 0 by unfold dateCredit; norm_num]
  rw [show vendorCredit 1 = 1/50 by unfold vendorCredit; norm_num]
  norm_num

/-!  ### Claim C5: the reference credit is a step/tier function -/

/-- C5.  The reference-similarity contribution is a tier function: similarity
at or above the `0.98` near-exact cut earns the full `0.65` budget; every
similarity in `[0.8, 0.95)` earns strictly less than linear interpolation
(`s * 0.65`) would give; similarity below `0.8` earns only `s * 0.15`. -/
theorem refCredit_tiers :
    (∀ s : ℚ, 49/50 ≤ s → refCredit s = 13/20) ∧
    (∀ s : ℚ, 4/5 ≤ s → s < 19/20 → refCredit s < s * (13/20)) ∧
    (∀ s : ℚ, 0 ≤ s → s < 4/5 → refCredit s = s * (3/20)) := by
  refine ⟨fun s hs => ?_, fun s h1 h2 => ?_, fun s h1 h2 => ?_⟩
  · unfold refCredit
    rw [if_pos hs]
  · unfold refCredit
    split_ifs <;> linarith
  · unfold refCredit
    rw [if_neg (by linarith), if_neg (by linarith), if_neg (by linarith)]

theorem refCredit_tiers_witness :
    refCredit (99/100) = 13/20 ∧ refCredit (85/100) < (85/100) * (13/20) ∧
      refCredit (1/2) = (1/2) * (3/20) :=
  ⟨refCredit_tiers.1 (99/100) (by norm_num),
    refCredit_tiers.2.1 (85/100) (by norm_num) (by norm_num),
    refCredit_tiers.2.2 (1/2) (by norm_num) (by norm_num)⟩

/-!  ### Claim C4 (corrected): score budget -/

/-- C4 counterexample.  Two records identical in reference, amount, date and
vendor whose shared reference is empty score `0.35`, not the full `1.0`
budget: the empty reference earns similarity `0` and no near-exact tier bonus. -/
theorem score_budget_counterexample :
    compositeScore ⟨[], 1, 0, "ACME".toList⟩ ⟨[], 1, 0, "ACME".toList⟩ = 7/20 ∧
      (7/20 : ℚ) ≠ 1 := by
  constructor
  · unfold compositeScore
    dsimp only
    rw [similarity_score_nil_left, similarity_score_self _ (by decide)]
    rw [show refCredit 0 = 0 by unfold refCredit; norm_num]
    rw [show amountCredit (1 : ℚ) 1 = 0 + 1/4 - 0 by
      unfold amountCredit amount_percent_diff; norm_num]
    rw [show dateCredit (0 : ℤ) 0 = 2/25 by unfold dateCredit; norm_num]
    rw [show vendorCredit 1 = 1/50 by unfold vendorCredit; norm_num]
    norm_num
  · norm_num

/-- C4 (amended).  Two records identical in reference, amount, date and
vendor, with nonempty reference and vendor and positive amount, reach the
near-exact tier bonus and score exactly the full weight budget
`0.65 + 0.25 + 0.08 + 0.02 = 1.0`; and no pair of records ever scores above
`1.0`. -/
theorem score_budget :
    (∀ r : Rec, r.reference ≠ [] → r.vendor ≠ [] → 0 < r.amount →
      compositeScore r r = 1) ∧
    (∀ g t : Rec, compositeScore g t ≤ 1) :=
  ⟨fun r h1 h2 h3 => compositeScore_self r h1 h2 h3, fun g t => compositeScore_le_one g t⟩

theorem score_budget_witness : compositeScore invA invA = 1 :=
  score_budget.1 invA (by decide) (by decide) (by norm_num [invA])

/-!  ### Claim C6: a date gap beyond the window zeroes the date factor but
does not by itself reject the pair -/

/-- C6.  Whenever the date gap exceeds the 30-day window the date factor
contributes `0`; yet the concrete pair `invA`/`invB` (44-day gap, identical
reference, amount and vendor) still scores `0.92 ≥ 0.5` and is committed as a
match by the engine rather than rejected. -/
theorem date_beyond_window_match :
    (∀ g t : Rec, 30 < |g.date - t.date| → dateCredit g.date t.date = 0) ∧
    compositeScore invA invB = 23/25 ∧ (1 : ℚ)/2 ≤ 23/25 ∧
    (reconcile_transactions (1/2) [invA] [invB]).matches'.map
      (fun m => (m.gstr2b_idx, m.tally_idx, m.match_score)) = [(0, 0, 23/25)] := by
  refine ⟨fun g t h => ?_, compositeScore_inv, by norm_num, ?_⟩
  · unfold dateCredit
    rw [if_neg (by omega), if_neg (by omega)]
  · simp only [reconcile_transactions, runA, innerScan, scanGo, List.enum_cons,
      List.enumFrom, compositeScore_inv]
    norm_num

theorem date_beyond_window_witness : dateCredit invA.date invB.date = 0 :=
  date_beyond_window_match.1 invA invB (by decide)

/-!  ### Claim C7 (corrected): string similarity utilities -/

/-- C7 counterexample.  `similarity_score` (difflib `SequenceMatcher`) is not
symmetric: the pair `"ABCB"`/`"BCAB"` gives `0.5` one way and `0.75` the
other; and `calculate_similarity` (`Levenshtein.ratio`) returns `1`, not `0`,
on two empty non-null strings. -/
theorem string_similarity_counterexample :
    similarity_score "ABCB".toList "BCAB".toList = 1/2 ∧
    similarity_score "BCAB".toList "ABCB".toList = 3/4 ∧
    (1 : ℚ)/2 ≠ 3/4 ∧
    calculate_similarity (some []) (some []) = 1 ∧ (1 : ℚ) ≠ 0 := by
  refine ⟨?_, ?_, by norm_num, rfl, by norm_num⟩
  · rw [similarity_score_eval _ _ 2 4 4 (1/2) (by decide) (by decide) (by decide) (by decide)
      (by decide) (by norm_num)]
  · rw [similarity_score_eval _ _ 3 4 4 (3/4) (by decide) (by decide) (by decide) (by decide)
      (by decide) (by norm_num)]

/-- C7 (amended).  `calculate_similarity` (Levenshtein) is symmetric, ranges
over `[0, 1]`, and returns `0` when either input is null, but returns `1` on
two empty non-null strings; `similarity_score` (SequenceMatcher) ranges over
`[0, 1]` and returns `0` when either input is empty, but is not symmetric. -/
theorem string_similarity_props :
    (∀ a b : Option (List Char), calculate_similarity a b = calculate_similarity b a) ∧
    (∀ a b : Option (List Char), 0 ≤ calculate_similarity a b ∧ calculate_similarity a b ≤ 1) ∧
    (∀ b : Option (List Char), calculate_similarity none b = 0 ∧ calculate_similarity b none = 0) ∧
    calculate_similarity (some []) (some []) = 1 ∧
    (∀ s1 s2 : List Char, 0 ≤ similarity_score s1 s2 ∧ similarity_score s1 s2 ≤ 1) ∧
    (∀ s : List Char, similarity_score [] s = 0 ∧ similarity_score s [] = 0) := by
  refine ⟨calculate_similarity_comm, calculate_similarity_mem_unit, fun b => ⟨rfl, ?_⟩, rfl,
    similarity_score_mem_unit, fun s => ⟨similarity_score_nil_left s, similarity_score_nil_right s⟩⟩
  cases b with
  | none => rfl
  | some x => rfl

/-!  ### Claim C8: the degenerate zero-amount comparison -/

/-- C8.  When both compared amounts are zero, the relative-difference
computation takes the guarded branch and yields `1` (no division by zero is
performed), the amount factor earns `0`, and the composite score degenerates
to the sum of the other three factors. -/
theorem zero_amount_guard (g t : Rec) (hg : g.amount = 0) (ht : t.amount = 0) :
    amount_percent_diff g.amount t.amount = 1 ∧
    amountCredit g.amount t.amount = 0 ∧
    compositeScore g t = refCredit (similarity_score g.reference t.reference) +
      dateCredit g.date t.date + vendorCredit (similarity_score g.vendor t.vendor) := by
  have h1 : amount_percent_diff g.amount t.amount = 1 := by
    unfold amount_percent_diff
    rw [hg, ht]
    rw [if_neg (by norm_num)]
  have h2 : amountCredit g.amount t.amount = 0 := by
    unfold amountCredit
    rw [h1]
    norm_num
  refine ⟨h1, h2, ?_⟩
  unfold compositeScore
  rw [h2]
  ring

theorem zero_amount_guard_witness :
    amount_percent_diff (0 : ℚ) 0 = 1 ∧ amountCredit (0 : ℚ) 0 = 0 := by
  have h := zero_amount_guard ⟨[], 0, 0, []⟩ ⟨[], 0, 0, []⟩ rfl rfl
  exact ⟨h.1, h.2.1⟩

/-!  ### Claim C10: the duplicate map is irreflexive and symmetric -/

/-- C10.  No index is ever its own near-duplicate, and for indices of the
dataframe, `j` is listed as a near-duplicate of `i` exactly when `i` is
listed as a near-duplicate of `j`. -/
theorem find_duplicates_irrefl_symm (df : List Rec) (tol : ℚ) (w : ℤ) :
    (∀ i, i ∉ find_duplicates df tol w i) ∧
    (∀ i j, i < df.length → j < df.length →
      (j ∈ find_duplicates df tol w i ↔ i ∈ find_duplicates df tol w j)) := by
  constructor
  · intro i hmem
    unfold find_duplicates at hmem
    simp only [List.mem_filter, List.mem_range, decide_eq_true_eq] at hmem
    exact hmem.2.2.2 rfl
  · intro i j hi hj
    unfold find_duplicates
    simp only [List.mem_filter, List.mem_range, decide_eq_true_eq]
    constructor
    · intro ⟨_, hd, ha, hne⟩
      exact ⟨hi, by rw [abs_sub_comm]; exact hd, by rw [abs_sub_comm]; exact ha,
        fun h => hne h.symm⟩
    · intro ⟨_, hd, ha, hne⟩
      exact ⟨hj, by rw [abs_sub_comm]; exact hd, by rw [abs_sub_comm]; exact ha,
        fun h => hne h.symm⟩

theorem find_duplicates_witness :
    (0 ∉ find_duplicates [invA, invB] 1 3 0) ∧
    (1 ∈ find_duplicates [invA, invB] 1 3 0 ↔ 0 ∈ find_duplicates [invA, invB] 1 3 1) :=
  ⟨(find_duplicates_irrefl_symm [invA, invB] 1 3).1 0,
    (find_duplicates_irrefl_symm [invA, invB] 1 3).2 0 1 (by norm_num) (by norm_num)⟩

/-!  ### The reconciliation result in terms of the final loop state -/

lemma reconcile_matches_def (thr : ℚ) (A B : List Rec) :
    (reconcile_transactions thr A B).matches' = (runA thr B A.enum ⟨[], [], []⟩).matches' := rfl

lemma reconcile_unmatchedA_def (thr : ℚ) (A B : List Rec) :
    (reconcile_transactions thr A B).unmatched_gstr2b =
      A.enum.filter (fun p => decide (p.1 ∉ (runA thr B A.enum ⟨[], [], []⟩).matchedA)) := rfl

lemma reconcile_unmatchedB_def (thr : ℚ) (A B : List Rec) :
    (reconcile_transactions thr A B).unmatched_tally =
      B.enum.filter (fun p => decide (p.1 ∉ (runA thr B A.enum ⟨[], [], []⟩).matchedB)) := rfl

lemma reconcile_metrics_def (thr : ℚ) (A B : List Rec) :
    (reconcile_transactions thr A B).metrics =
      computeMetrics (runA thr B A.enum ⟨[], [], []⟩).matches'
        (A.enum.filter (fun p => decide (p.1 ∉ (runA thr B A.enum ⟨[], [], []⟩).matchedA)))
        (B.enum.filter (fun p => decide (p.1 ∉ (runA thr B A.enum ⟨[], [], []⟩).matchedB))) := rfl

/-- The state invariant holds at the end of a full engine run. -/
lemma reconcile_state_inv (thr : ℚ) (hthr : 0 < thr) (A B : List Rec) :
    StInv thr A.length B (runA thr B A.enum ⟨[], [], []⟩) := by
  apply runA_inv hthr
  · have h : A.enum.map Prod.fst = List.range A.length := by
      rw [List.enum_eq_enumFrom, List.enumFrom_map_fst, ← List.range_eq_range']
    rw [h]
    exact List.pairwise_lt_range A.length
  · intro p hp
    obtain ⟨h, _⟩ := mem_enum_iff.mp hp
    exact h
  · intro i hi
    simp at hi
  · refine ⟨rfl, rfl, List.nodup_nil, List.nodup_nil, by simp, by simp, ?_⟩
    intro k hk
    simp at hk

/-!  ### Claim C2: the greedy matcher commits the earliest maximal eligible
candidate and never reclaims a consumed index -/

/-- C2.  Every committed match of the engine satisfies `MatchSpec`: its score
is the composite score of its own two rows, it clears the threshold, its
tally index was not consumed by any earlier match, it weakly dominates every
candidate left unconsumed by the earlier matches, and among those tied at the
maximal score it has the least tally index. -/
theorem greedy_matcher_correct (thr : ℚ) (A B : List Rec) (hthr : 0 < thr) :
    MatchSpec thr B (reconcile_transactions thr A B).matches' :=
  (reconcile_state_inv thr hthr A B).2.2.2.2.2.2

theorem greedy_matcher_correct_witness :
    MatchSpec (1/2) [rTally] (reconcile_transactions (1/2) [rNear, rHigh] [rTally]).matches' :=
  greedy_matcher_correct (1/2) [rNear, rHigh] [rTally] (by norm_num)

/-!  ### Claim C1: the partition invariant -/

/-- C1.  No GSTR2B index and no tally index appears in two matches; all match
indices are in range; an index is matched exactly when it is missing from the
corresponding unmatched output; and each side's size is the number of matches
plus the number of its unmatched records. -/
theorem partition_invariant (thr : ℚ) (A B : List Rec) (hthr : 0 < thr) :
    ((reconcile_transactions thr A B).matches'.map MatchEntry.gstr2b_idx).Nodup ∧
    ((reconcile_transactions thr A B).matches'.map MatchEntry.tally_idx).Nodup ∧
    (∀ m ∈ (reconcile_transactions thr A B).matches',
      m.gstr2b_idx < A.length ∧ m.tally_idx < B.length) ∧
    (∀ i, i < A.length →
      ((∃ m ∈ (reconcile_transactions thr A B).matches', m.gstr2b_idx = i) ↔
        i ∉ (reconcile_transactions thr A B).unmatched_gstr2b.map Prod.fst)) ∧
    (∀ j, j < B.length →
      ((∃ m ∈ (reconcile_transactions thr A B).matches', m.tally_idx = j) ↔
        j ∉ (reconcile_transactions thr A B).unmatched_tally.map Prod.fst)) ∧
    A.length = (reconcile_transactions thr A B).matches'.length +
      (reconcile_transactions thr A B).unmatched_gstr2b.length ∧
    B.length = (reconcile_transactions thr A B).matches'.length +
      (reconcile_transactions thr A B).unmatched_tally.length := by
  obtain ⟨hA, hB, hAnd, hBnd, hAlt, hBlt, _⟩ := reconcile_state_inv thr hthr A B
  rw [reconcile_matches_def, reconcile_unmatchedA_def, reconcile_unmatchedB_def]
  rw [← hA, ← hB]
  have huAfst : ∀ i, i ∈ (A.enum.filter
      (fun p => decide (p.1 ∉ (runA thr B A.enum ⟨[], [], []⟩).matchedA))).map Prod.fst ↔
      i < A.length ∧ i ∉ (runA thr B A.enum ⟨[], [], []⟩).matchedA := by
    intro i
    simp only [List.mem_map, List.mem_filter, decide_eq_true_eq]
    constructor
    · intro ⟨p, ⟨hpe, hpm⟩, hp1⟩
      obtain ⟨hlt, _⟩ := mem_enum_iff.mp hpe
      exact ⟨hp1 ▸ hlt, hp1 ▸ hpm⟩
    · intro ⟨hlt, hmem⟩
      exact ⟨(i, A.get ⟨i, hlt⟩), ⟨mem_enum_iff.mpr ⟨hlt, rfl⟩, hmem⟩, rfl⟩
  have huBfst : ∀ j, j ∈ (B.enum.filter
      (fun p => decide (p.1 ∉ (runA thr B A.enum ⟨[], [], []⟩).matchedB))).map Prod.fst ↔
      j < B.length ∧ j ∉ (runA thr B A.enum ⟨[], [], []⟩).matchedB := by
    intro j
    simp only [List.mem_map, List.mem_filter, decide_eq_true_eq]
    constructor
    · intro ⟨p, ⟨hpe, hpm⟩, hp1⟩
      obtain ⟨hlt, _⟩ := mem_enum_iff.mp hpe
      exact ⟨hp1 ▸ hlt, hp1 ▸ hpm⟩
    · intro ⟨hlt, hmem⟩
      exact ⟨(j, B.get ⟨j, hlt⟩), ⟨mem_enum_iff.mpr ⟨hlt, rfl⟩, hmem⟩, rfl⟩
  refine ⟨hAnd, hBnd, ?_, ?_, ?_, ?_, ?_⟩
  · intro m hm
    exact ⟨hAlt _ (by rw [hA]; exact List.mem_map_of_mem _ hm),
      hBlt _ (by rw [hB]; exact List.mem_map_of_mem _ hm)⟩
  · intro i hi
    rw [huAfst i, hA, not_and, not_not]
    constructor
    · intro ⟨m, hm, hmi⟩ _
      exact List.mem_map.mpr ⟨m, hm, hmi⟩
    · intro h
      obtain ⟨m, hm, hmi⟩ := List.mem_map.mp (h hi)
      exact ⟨m, hm, hmi⟩
  · intro j hj
    rw [huBfst j, hB, not_and, not_not]
    constructor
    · intro ⟨m, hm, hmj⟩ _
      exact List.mem_map.mpr ⟨m, hm, hmj⟩
    · intro h
      obtain ⟨m, hm, hmj⟩ := List.mem_map.mp (h hj)
      exact ⟨m, hm, hmj⟩
  · have hsplit := filter_enum_split_length A (runA thr B A.enum ⟨[], [], []⟩).matchedA
    have hmatched := filter_enum_mem_length A (runA thr B A.enum ⟨[], [], []⟩).matchedA hAnd hAlt
    have hlen : (runA thr B A.enum ⟨[], [], []⟩).matchedA.length =
        (runA thr B A.enum ⟨[], [], []⟩).matches'.length := by
      rw [hA, List.length_map]
    omega
  · have hsplit := filter_enum_split_length B (runA thr B A.enum ⟨[], [], []⟩).matchedB
    have hmatched := filter_enum_mem_length B (runA thr B A.enum ⟨[], [], []⟩).matchedB hBnd hBlt
    have hlen : (runA thr B A.enum ⟨[], [], []⟩).matchedB.length =
        (runA thr B A.enum ⟨[], [], []⟩).matches'.length := by
      rw [hB, List.length_map]
    omega

theorem partition_invariant_witness :
    ((reconcile_transactions (1/2) [invA] [invB]).matches'.map MatchEntry.gstr2b_idx).Nodup ∧
    [invA].length = (reconcile_transactions (1/2) [invA] [invB]).matches'.length +
      (reconcile_transactions (1/2) [invA] [invB]).unmatched_gstr2b.length := by
  have h := partition_invariant (1/2) [invA] [invB] (by norm_num)
  exact ⟨h.1, h.2.2.2.2.2.1⟩

/-!  ### Claim C3 (corrected): threshold monotonicity -/

/-- C3 counterexample.  On the same inputs, the run with the higher threshold
`0.6` produces the match `(1, 0)` which the run with the lower threshold
`0.5` does not produce: at `0.5` the first GSTR2B record consumes the only
tally record (score `0.55`), while at `0.6` it is skipped and the second
GSTR2B record takes it (score `0.65`).  Raising the threshold therefore
*added* a match that the lower-threshold run lacks. -/
theorem threshold_monotonicity_counterexample :
    (1 : ℚ)/2 < 3/5 ∧
    ((reconcile_transactions (3/5) [rNear, rHigh] [rTally]).matches'.map
      (fun m => (m.gstr2b_idx, m.tally_idx)) = [(1, 0)]) ∧
    ((reconcile_transactions (1/2) [rNear, rHigh] [rTally]).matches'.map
      (fun m => (m.gstr2b_idx, m.tally_idx)) = [(0, 0)]) := by
  refine ⟨by norm_num, ?_, ?_⟩ <;>
  · simp only [reconcile_transactions, runA, innerScan, scanGo, List.enum_cons,
      List.enumFrom, compositeScore_rNear, compositeScore_rHigh]
    norm_num

/-- C3 (amended).  Monotonicity does hold scan by scan: for one side-A record
against the same set of not-yet-consumed side-B records, if the scan at the
higher threshold commits a candidate then the scan at any lower positive
threshold commits the same candidate at the same score.  Whole runs diverge
only because the consumed sets evolve differently. -/
theorem threshold_monotonic_per_scan (thr1 thr2 : ℚ) (h1 : 0 < thr1) (h12 : thr1 ≤ thr2)
    (g : Rec) (tally : List Rec) (consumed : List ℕ) (q : ℕ × Rec) (s : ℚ)
    (h : innerScan thr2 g tally consumed = some (q, s)) :
    innerScan thr1 g tally consumed = some (q, s) := by
  have h2 : 0 < thr2 := lt_of_lt_of_le h1 h12
  obtain ⟨hqmem, hqcons, hqs, hqthr, hmax, htie⟩ := innerScan_some h2 h
  rcases hres : innerScan thr1 g tally consumed with _ | ⟨q', s'⟩
  · exfalso
    have hlow := innerScan_none h1 hres q hqmem hqcons
    rw [← hqs] at hlow
    linarith
  · obtain ⟨hq'mem, hq'cons, hq's, hq'thr, h'max, h'tie⟩ := innerScan_some h1 hres
    have hss : s' = s := by
      have hle1 : s' ≤ s := by
        rw [hq's]
        exact hmax q' hq'mem hq'cons
      have hle2 : s ≤ s' := by
        rw [hqs]
        exact h'max q hqmem hqcons
      linarith
    have hidx : q'.1 = q.1 := by
      have ha : q'.1 ≤ q.1 := h'tie q hqmem hqcons (by rw [← hqs, hss])
      have hb : q.1 ≤ q'.1 := htie q' hq'mem hq'cons (by rw [← hq's, hss])
      omega
    have hq : q' = q := by
      obtain ⟨hl, hv⟩ := mem_enum_iff.mp hqmem
      obtain ⟨hl', hv'⟩ := mem_enum_iff.mp hq'mem
      obtain ⟨q1, qd⟩ := q
      obtain ⟨q1', qd'⟩ := q'
      simp only at hidx hl hl' hv hv'
      subst hidx
      rw [← hv, ← hv']
    rw [hq, hss]

theorem threshold_monotonic_per_scan_witness :
    innerScan (1/2) rHigh [rTally] [] = some ((0, rTally), 13/20) := by
  apply threshold_monotonic_per_scan (1/2) (3/5) (by norm_num) (by norm_num) rHigh [rTally] []
    (0, rTally) (13/20)
  simp only [innerScan, scanGo, List.enum_cons, List.enumFrom, compositeScore_rHigh]
  norm_num

/-!  ### Claim C9: an empty tally side leaves everything on the GSTR2B side
unmatched with zero matched totals -/

/-- C9.  Against an empty tally side, a nonempty GSTR2B input yields zero
matches, all GSTR2B rows unmatched, zero for every matched-count and
matched-subtotal metric, and unmatched totals equal to the full GSTR2B
total. -/
theorem empty_tally_all_unmatched (thr : ℚ) (A : List Rec) (_hA : A ≠ []) :
    (reconcile_transactions thr A []).matches' = [] ∧
    (reconcile_transactions thr A []).unmatched_gstr2b = A.enum ∧
    (reconcile_transactions thr A []).unmatched_tally = [] ∧
    (reconcile_transactions thr A []).metrics.total_matches = 0 ∧
    (reconcile_transactions thr A []).metrics.high_confidence = 0 ∧
    (reconcile_transactions thr A []).metrics.medium_confidence = 0 ∧
    (reconcile_transactions thr A []).metrics.low_confidence = 0 ∧
    (reconcile_transactions thr A []).metrics.average_score = 0 ∧
    (reconcile_transactions thr A []).metrics.unmatched_total = A.length ∧
    matched_amount_total A
      ((reconcile_transactions thr A []).matches'.map MatchEntry.gstr2b_idx) = 0 ∧
    unmatched_amount_total A
      ((reconcile_transactions thr A []).matches'.map MatchEntry.gstr2b_idx) =
      amount_total A := by
  have hrun : runA thr [] A.enum ⟨[], [], []⟩ = ⟨[], [], []⟩ := runA_nil_tally thr A.enum _
  have hfilter : A.enum.filter (fun p => decide (p.1 ∉ ([] : List ℕ))) = A.enum :=
    List.filter_eq_self.mpr (fun p _ => by simp)
  have hm : (reconcile_transactions thr A []).matches' = [] := by
    rw [reconcile_matches_def, hrun]
  have huA : (reconcile_transactions thr A []).unmatched_gstr2b = A.enum := by
    rw [reconcile_unmatchedA_def, hrun]
    exact hfilter
  have huB : (reconcile_transactions thr A []).unmatched_tally = [] := by
    rw [reconcile_unmatchedB_def, hrun]
    rfl
  have hmet : (reconcile_transactions thr A []).metrics = computeMetrics [] A.enum [] := by
    rw [reconcile_metrics_def, hrun]
    rw [hfilter]
    rfl
  have hsum : (A.enum.map (fun p => p.2.amount)).sum = (A.map Rec.amount).sum := by
    have h1 : A.enum.map (fun p => p.2.amount) = (A.enum.map Prod.snd).map Rec.amount := by
      rw [List.map_map]
      rfl
    rw [h1, List.enum_eq_enumFrom, List.enumFrom_map_snd]
  refine ⟨hm, huA, huB, by rw [hmet]; rfl, by rw [hmet]; rfl, by rw [hmet]; rfl,
    by rw [hmet]; rfl, by rw [hmet]; rfl, ?_, ?_, ?_⟩
  · rw [hmet]
    show A.enum.length + ([] : List (ℕ × Rec)).length = A.length
    rw [length_enum]
    rfl
  · rw [hm]
    rfl
  · rw [hm]
    unfold unmatched_amount_total amount_total
    show ((A.enum.filter (fun p => decide (p.1 ∉ ([] : List ℕ)))).map (fun p => p.2.amount)).sum
      = (A.map Rec.amount).sum
    rw [hfilter, hsum]

theorem empty_tally_witness :
    (reconcile_transactions (1/2) [invA] []).matches' = [] ∧
    unmatched_amount_total [invA]
      ((reconcile_transactions (1/2) [invA] []).matches'.map MatchEntry.gstr2b_idx) =
      amount_total [invA] := by
  have h := empty_tally_all_unmatched (1/2) [invA] (by simp)
  exact ⟨h.1, h.2.2.2.2.2.2.2.2.2.2⟩

end SmeRecon


